import Mathlib

/-!
Verification of the ragged-array container of `datashader/datatypes.py`.

The embedding follows the source closely:

* a logical element (`RElem`) is either a 1-D numeric array (`some xs`) or the
  missing sentinel `np.nan` / `None` (`none`);
* a `RaggedArray` is the pair of the `start_indices` buffer (unsigned offsets,
  modelled as `List Nat`) and the `flat_array` values buffer (`List Int`);
* each public operation of the Python class is translated to a Lean function
  over these lists; fallible operations return `Except RErr`.
-/

set_option maxHeartbeats 1000000
set_option maxRecDepth 100000

namespace DS

/-- One logical element: a 1-D numeric array, or the missing sentinel. -/
abbrev RElem := Option (List Int)

/-- Length contributed to the flat buffer by one input element
(`len(datum) if not missing(datum) else 0`). -/
def elemLen : RElem → Nat
  | none => 0
  | some xs => xs.length

/-- Values contributed to the flat buffer by one input element. -/
def elemVals : RElem → List Int
  | none => []
  | some xs => xs

/-- The two owned buffers of `RaggedArray` (`start_indices` and `flat_array`)
together with the bit width of the unsigned dtype of `start_indices`
(8, 16, 32 or 64).  The width matters: `_concat_same_type` adds an integer
scalar to the narrow uint offsets array, and under value-based casting that
addition wraps at the resulting dtype. -/
structure RaggedArray where
  start_indices : List Nat
  width : Nat
  flat_array : List Int
deriving DecidableEq, Repr

/-- `RaggedArray.__len__`: the length of the `start_indices` buffer. -/
def RaggedArray.length (c : RaggedArray) : Nat :=
  c.start_indices.length

/-- Error taxonomy of the Python code: `IndexError` from positional access,
`ValueError` from `take(allow_fill=True)` (carrying the reported offending
indices), `ValueError` from `_validate_ragged_properties` (carrying the
reported offending offsets), the length-mismatch `ValueError` of `fillna`,
and the `IndexError` of a non-empty take from an empty array. -/
inductive RErr where
  | indexError (i : Int)
  | valueError (inds : List Int)
  | invariantError (vals : List Nat)
  | lengthError
  | emptyTakeError
deriving DecidableEq, Repr

/-- The `start_indices` written by `RaggedArray.__init__` for sequence input:
element `i` starts at the running total of the lengths of elements `0..i-1`. -/
def buildOffsets : List RElem → Nat → List Nat
  | [], _ => []
  | d :: ds, acc => acc :: buildOffsets ds (acc + elemLen d)

/-- Total flat length of a sequence input (`buffer_len` in the source). -/
def sumLen (data : List RElem) : Nat :=
  (data.map elemLen).sum

/-- The narrowest unsigned width able to represent `buffer_len`
(`for nbits in [8, 16, 32, 64]: ... if buffer_len <= max_supported: break`);
the loop falls through to 64 when even uint64 cannot represent it. -/
def npUintWidth (n : Nat) : Nat :=
  if n ≤ 255 then 8
  else if n ≤ 65535 then 16
  else if n ≤ 4294967295 then 32
  else 64

/-- `RaggedArray.__init__` on a list of arrays / missing values: the flat
buffer is the concatenation of all element payloads, the offsets are the
running lengths, and the offsets dtype is the narrowest sufficient unsigned
width.  (The dtype inference of the values buffer is not value-relevant, but
the offsets width is: concatenation arithmetic wraps at it.) -/
def ragged_from_seq (data : List RElem) : RaggedArray :=
  ⟨buildOffsets data 0, npUintWidth (sumLen data), (data.map elemVals).flatten⟩

/-- Invariant A of the spec: every offset is at most the flat-buffer length. -/
def validRA (c : RaggedArray) : Prop :=
  ∀ s ∈ c.start_indices, s ≤ c.flat_array.length

instance (c : RaggedArray) : Decidable (validRA c) :=
  inferInstanceAs (Decidable (∀ s ∈ c.start_indices, s ≤ c.flat_array.length))

/-- `_validate_ragged_properties`: flags `start_indices > len(flat_array)`.
The reported values reproduce the source expression
`start_indices[invalid_inds[:10]]`: the boolean mask is truncated to its first
ten entries and then used to select from `start_indices` (prefix selection,
the behaviour of boolean-mask indexing with a short mask). -/
def validate (start_indices : List Nat) (flat_array : List Int) :
    Except (List Nat) Unit :=
  let invalid_inds := start_indices.map (fun s => decide (flat_array.length < s))
  if invalid_inds.any id then
    .error ((start_indices.zip (invalid_inds.take 10)).filterMap
      (fun p => if p.2 then some p.1 else none))
  else
    .ok ()

/-- `RaggedArray.__init__` on a raw `{start_indices, flat_array}` dict:
validate, then adopt both buffers as-is, keeping whatever unsigned width the
supplied offsets array has.  (The 1-D/unsigned dtype checks of the source
hold by the types of the embedding; an actual uint array of width `w` can
only hold offsets below `2 ^ w`, which theorems assume where needed.) -/
def ragged_from_raw (start_indices : List Nat) (width : Nat)
    (flat_array : List Int) : Except (List Nat) RaggedArray :=
  (validate start_indices flat_array).map
    (fun _ => ⟨start_indices, width, flat_array⟩)

/-- The stop index of element `j`: `start_indices[j+1]` when `j` is not the
last position (`item + 1 <= len(self) - 1` in the source, i.e. `j + 2 ≤ N`),
otherwise `len(flat_array)`. -/
def stopAt (c : RaggedArray) (j : Nat) : Nat :=
  if j + 2 ≤ c.length then c.start_indices.getD (j + 1) 0 else c.flat_array.length

/-- The body of integer `__getitem__` after bounds handling: the slice
`flat_array[slice_start:slice_end]` when the two differ, else the missing
sentinel.  Python slicing with in-range unsigned bounds is drop-then-take. -/
def matAt (c : RaggedArray) (j : Nat) : RElem :=
  let s := c.start_indices.getD j 0
  let e := stopAt c j
  if e ≠ s then some ((c.flat_array.drop s).take (e - s)) else none

/-- Integer `__getitem__`: bounds check over `[-N, N)`, negative indices
counted from the end, then `matAt`. -/
def getId (c : RaggedArray) (i : Int) : Except RErr RElem :=
  if i < -(c.length : Int) ∨ (c.length : Int) ≤ i then
    .error (.indexError i)
  else
    .ok (matAt c (if i < 0 then i + c.length else i).toNat)

/-- Materialization of every position, in order. -/
def mats (c : RaggedArray) : List RElem :=
  (List.range c.length).map (matAt c)

/-- Normalization applied by encode-then-materialize: a zero-length array
comes back as the missing sentinel, everything else is unchanged. -/
def collapseEmpty (x : RElem) : RElem :=
  if x = some [] then none else x

/-- Python index normalization for slice endpoints: add the length to a
negative endpoint, then clamp into `[0, N]`. -/
def pyNorm (N : Nat) (v : Int) : Nat :=
  (max 0 (min (N : Int) (if v < 0 then v + N else v))).toNat

/-- The selected positions `np.arange(len(self))[item]` for a step-1 slice. -/
def sliceIdx (N : Nat) (start stop : Option Int) : List Nat :=
  let s := match start with | none => 0 | some v => pyNorm N v
  let e := match stop with | none => N | some v => pyNorm N v
  ((List.range N).drop s).take (e - s)

/-- Slice `__getitem__` (step 1): materialize each selected position in order
and re-encode through the sequence constructor. -/
def getSlice (c : RaggedArray) (start stop : Option Int) : RaggedArray :=
  ragged_from_seq ((sliceIdx c.length start stop).map (matAt c))

/-- The indices of the `True` entries of a boolean mask,
as enumerated by `for i, m in enumerate(item): if m: ...`. -/
def trueIdxs (mask : List Bool) : List Nat :=
  ((List.range mask.length).zip mask).filterMap
    (fun p => if p.2 then some p.1 else none)

/-- Boolean-mask `__getitem__`: gather `self[i]` at every `True` position of
the mask (no length check against `len(self)`), then re-encode. -/
def getMask (c : RaggedArray) (mask : List Bool) : Except RErr RaggedArray :=
  ((trueIdxs mask).mapM (fun i => getId c (Int.ofNat i))).map ragged_from_seq

/-- `RaggedArray.take`.  With `allow_fill` a negative index other than `-1`
raises `ValueError` reporting the first nine offenders (`invalid_inds[:9]`);
otherwise `-1` yields `fill_value` and non-negative indices are positional
lookups.  Without `allow_fill`, a non-empty take from an empty array raises,
and every index is a plain positional lookup. -/
def takeRA (c : RaggedArray) (indices : List Int) (allow_fill : Bool)
    (fill : RElem) : Except RErr RaggedArray :=
  if allow_fill then
    if indices.filter (fun i => i < -1) ≠ [] then
      .error (.valueError ((indices.filter (fun i => i < -1)).take 9))
    else
      (indices.mapM (fun i => if 0 ≤ i then getId c i else pure fill)).map
        ragged_from_seq
  else
    if c.length = 0 ∧ indices.length ≠ 0 then
      .error .emptyTakeError
    else
      (indices.mapM (getId c)).map ragged_from_seq

/-- `RaggedArray.copy`: re-wraps the two buffers (validation always passes on
a valid instance); at value level the result equals the receiver whether or
not `deep` is set. -/
def copyRA (c : RaggedArray) : RaggedArray := c

/-- The dtype width in which `ra.start_indices + offset` is computed: numpy
value-based casting promotes the uint array dtype with the minimal unsigned
dtype of the non-negative integer scalar, so the addition is carried out (and
wraps) modulo `2 ^ max(ra.width, npUintWidth offset)`. -/
def shiftWidth (ra : RaggedArray) (off : Nat) : Nat :=
  max ra.width (npUintWidth off)

/-- The offsets of `_concat_same_type`: each source array contributes its
offsets shifted by the running total of the flat lengths before it, the
addition wrapping at the promoted uint width (era-numpy value-based
casting). -/
def concatOffsets : List RaggedArray → Nat → List Nat
  | [], _ => []
  | ra :: rest, off =>
      ra.start_indices.map (fun s => (s + off) % 2 ^ shiftWidth ra off) ++
        concatOffsets rest (off + ra.flat_array.length)

/-- The offsets dtype width of the concatenated result: `np.hstack` promotes
the pieces to the widest of their (shifted) unsigned dtypes. -/
def concatWidth : List RaggedArray → Nat → Nat
  | [], _ => 0
  | ra :: rest, off =>
      max (shiftWidth ra off) (concatWidth rest (off + ra.flat_array.length))

/-- `RaggedArray._concat_same_type`: concatenate the flat buffers and the
shifted offsets buffers.  (The offset scalars come from an int64 cumulative
sum, the path taken for two or more arrays; the degenerate one-array call
goes through a float offsets array in the source and fails validation, and
is not relied on by any claim.) -/
def concatRA (l : List RaggedArray) : RaggedArray :=
  ⟨concatOffsets l 0, concatWidth l 0, (l.map RaggedArray.flat_array).flatten⟩

/-- The offset rewrite as the spec describes it — exact, with no fixed-width
wraparound.  Used to state when the wrapping arithmetic of the source
coincides with the spec (no shift overflows its dtype). -/
def concatOffsetsX : List RaggedArray → Nat → List Nat
  | [], _ => []
  | ra :: rest, off =>
      ra.start_indices.map (· + off) ++
        concatOffsetsX rest (off + ra.flat_array.length)

/-- `concatFits l off = true` iff none of the offset-shift additions
performed by `_concat_same_type` on `l` (with running offset starting at
`off`) overflows the uint width in which numpy computes it. -/
def concatFits : List RaggedArray → Nat → Bool
  | [], _ => true
  | ra :: rest, off =>
      ra.start_indices.all (fun s => s + off < 2 ^ shiftWidth ra off) &&
        concatFits rest (off + ra.flat_array.length)

/-- `RaggedArray.shift`: empty array or zero periods gives a copy back;
otherwise build `min(|periods|, N)` fill elements and concatenate them with
the matching slice of `self` on the proper side. -/
def shiftRA (c : RaggedArray) (periods : Int) (fill : RElem) : RaggedArray :=
  if c.length = 0 ∨ periods = 0 then copyRA c
  else
    let emp := ragged_from_seq (List.replicate (min periods.natAbs c.length) fill)
    if 0 < periods then concatRA [emp, getSlice c none (some (-periods))]
    else concatRA [getSlice c (some (periods.natAbs : Int)) none, emp]

/-- `shiftFits c p fill = true` iff the single concatenation performed by
`RaggedArray.shift` does not overflow the offsets dtype of either block;
always true for `periods = 0` or an empty container, and (provably) for the
default missing fill value. -/
def shiftFits (c : RaggedArray) (periods : Int) (fill : RElem) : Bool :=
  if c.length = 0 ∨ periods = 0 then true
  else if 0 < periods then
    concatFits [ragged_from_seq (List.replicate (min periods.natAbs c.length) fill),
      getSlice c none (some (-periods))] 0
  else
    concatFits [getSlice c (some (periods.natAbs : Int)) none,
      ragged_from_seq (List.replicate (min periods.natAbs c.length) fill)] 0

/-- `RaggedArray.isna`: element lengths are `stop_indices - start_indices`
computed in unsigned arithmetic, so the element is flagged missing exactly
when its stop index equals its start index. -/
def isnaRA (c : RaggedArray) : List Bool :=
  (List.range c.length).map (fun j => decide (stopAt c j = c.start_indices.getD j 0))

/-- `RaggedArray.fillna` with a per-element (scalar) `value`: when any
position is missing, replace each missing position with `value` and re-encode;
otherwise return a copy. -/
def fillna_scalar (c : RaggedArray) (value : RElem) : RaggedArray :=
  if (isnaRA c).any id then
    ragged_from_seq (((mats c).zip (isnaRA c)).map
      (fun p => if p.2 then value else p.1))
  else copyRA c

/-- What a slot of the list `new_values` holds inside `fillna` just before
re-encoding: either a materialized element, or (when `value` was itself a
`RaggedArray`) the whole masked sub-container object. -/
inductive FillDatum where
  | el : RElem → FillDatum
  | ra : RaggedArray → FillDatum
deriving DecidableEq, Repr

/-- `RaggedArray.fillna` with a `RaggedArray` value: check the length, mask
`value` by `isna` (`value = value[mask]`), and then assign that object to
every missing slot of `new_values` (`new_values[ind] = value`).  The result
is the `new_values` list handed to the sequence constructor. -/
def fillna_ra (c value : RaggedArray) : Except RErr (List FillDatum) :=
  if value.length ≠ c.length then .error .lengthError
  else
    match getMask value (isnaRA c) with
    | .error e => .error e
    | .ok masked =>
        if (isnaRA c).any id then
          .ok (((mats c).zip (isnaRA c)).map
            (fun p => if p.2 then .ra masked else .el p.1))
        else
          .ok ((mats c).map .el)

/-- First-occurrence deduplication with an explicit seen accumulator: the
behaviour of `pandas.unique` on the `RaggedElement`/nan object array, where
two wrappers are equal exactly when their full value sequences are equal and
all nan sentinels fall into one hash class. -/
def pdUniqueAux : List RElem → List RElem → List RElem
  | [], _ => []
  | x :: xs, seen =>
      if x ∈ seen then pdUniqueAux xs seen
      else x :: pdUniqueAux xs (x :: seen)

/-- `pandas.unique` over materialized elements. -/
def pdUnique (l : List RElem) : List RElem :=
  pdUniqueAux l []

/-- `RaggedArray.unique`: deduplicate the materialized elements keeping first
occurrences, then re-encode the survivors. -/
def uniqueRA (c : RaggedArray) : RaggedArray :=
  ragged_from_seq (pdUnique (mats c))

/-! ### Round-trip structure of the sequence constructor -/

theorem buildOffsets_length (data : List RElem) (acc : Nat) :
    (buildOffsets data acc).length = data.length := by
  induction data generalizing acc with
  | nil => rfl
  | cons d ds ih => simp [buildOffsets, ih]

theorem buildOffsets_getD (data : List RElem) (acc i : Nat)
    (h : i < data.length) :
    (buildOffsets data acc).getD i 0 = acc + sumLen (data.take i) := by
  induction data generalizing acc i with
  | nil => simp at h
  | cons d ds ih =>
    cases i with
    | zero => simp [buildOffsets, sumLen]
    | succ i =>
      have h' : i < ds.length := by simpa using h
      simp only [buildOffsets, List.getD_cons_succ, ih (acc + elemLen d) i h',
        List.take_succ_cons, sumLen, List.map_cons, List.sum_cons]
      omega

theorem flat_length (data : List RElem) :
    ((data.map elemVals).flatten).length = sumLen data := by
  induction data with
  | nil => rfl
  | cons d ds ih =>
    simp only [List.map_cons, List.flatten_cons, List.length_append, ih, sumLen,
      List.sum_cons]
    cases d <;> simp [elemVals, elemLen, sumLen]

theorem elemVals_length (d : RElem) : (elemVals d).length = elemLen d := by
  cases d <;> rfl

theorem drop_append_len {α : Type} (a b : List α) (k : Nat) :
    (a ++ b).drop (a.length + k) = b.drop k := by
  induction a with
  | nil => simp
  | cons x xs ih => simp [Nat.succ_add, ih]

theorem flat_segment (data : List RElem) (i : Nat) (h : i < data.length) :
    (((data.map elemVals).flatten).drop (sumLen (data.take i))).take
        (elemLen (data.getD i none)) = elemVals (data.getD i none) := by
  induction data generalizing i with
  | nil => simp at h
  | cons d ds ih =>
    cases i with
    | zero =>
      simp only [List.take_zero, sumLen, List.map_nil, List.sum_nil,
        List.getD_cons_zero, List.map_cons, List.flatten_cons, List.drop_zero]
      rw [← elemVals_length d, List.take_left]
    | succ i =>
      have h' : i < ds.length := by simpa using h
      have hlen : sumLen (List.take (i + 1) (d :: ds)) =
          (elemVals d).length + sumLen (ds.take i) := by
        simp [sumLen, elemVals_length]
      simp only [List.getD_cons_succ, List.map_cons, List.flatten_cons, hlen,
        drop_append_len]
      exact ih i h'

theorem length_fs (data : List RElem) :
    (ragged_from_seq data).length = data.length := by
  simp [ragged_from_seq, RaggedArray.length, buildOffsets_length]

theorem sumLen_take_succ (data : List RElem) (i : Nat) (h : i < data.length) :
    sumLen (data.take (i + 1)) = sumLen (data.take i) + elemLen (data.getD i none) := by
  have := List.sum_take_succ (data.map elemLen) i (by simpa using h)
  simp only [sumLen, List.map_take]
  rw [this, List.getElem_map, List.getD_eq_getElem data none h]

theorem sumLen_take_le (data : List RElem) (i : Nat) :
    sumLen (data.take i) ≤ sumLen data := by
  simp only [sumLen, List.map_take]
  calc ((data.map elemLen).take i).sum
      ≤ ((data.map elemLen).take i).sum + ((data.map elemLen).drop i).sum := by omega
    _ = (data.map elemLen).sum := by rw [← List.sum_append, List.take_append_drop]

theorem matAt_fs (data : List RElem) (j : Nat) (h : j < data.length) :
    matAt (ragged_from_seq data) j = collapseEmpty (data.getD j none) := by
  have hN : (ragged_from_seq data).length = data.length := length_fs data
  have hs : (ragged_from_seq data).start_indices.getD j 0 = sumLen (data.take j) := by
    simpa [ragged_from_seq] using buildOffsets_getD data 0 j h
  have he : stopAt (ragged_from_seq data) j = sumLen (data.take (j + 1)) := by
    unfold stopAt
    by_cases hcase : j + 2 ≤ (ragged_from_seq data).length
    · rw [if_pos hcase]
      have : j + 1 < data.length := by omega
      simpa [ragged_from_seq] using buildOffsets_getD data 0 (j + 1) this
    · rw [if_neg hcase]
      have hj : j + 1 = data.length := by omega
      simp only [ragged_from_seq, flat_length]
      rw [hj, List.take_of_length_le (le_refl _)]
  have hsum := sumLen_take_succ data j h
  unfold matAt
  rw [hs, he, hsum]
  by_cases hz : elemLen (data.getD j none) = 0
  · rw [if_neg (by omega)]
    revert hz
    cases hd : data.getD j none with
    | none => intro _; simp [collapseEmpty]
    | some xs =>
      intro hz
      have : xs = [] := by
        simpa [elemLen] using hz
      subst this
      simp [collapseEmpty]
  · rw [if_pos (by omega)]
    have hseg := flat_segment data j h
    simp only [ragged_from_seq, Nat.add_sub_cancel_left]
    rw [hseg]
    revert hz
    cases data.getD j none with
    | none => intro hz; simp [elemLen] at hz
    | some xs =>
      intro hz
      have : xs ≠ [] := by
        intro hnil; subst hnil; simp [elemLen] at hz
      simp [elemVals, collapseEmpty, this]

theorem mats_fs (data : List RElem) :
    mats (ragged_from_seq data) = data.map collapseEmpty := by
  apply List.ext_get
  · simp [mats, length_fs]
  · intro n h₁ h₂
    have hn : n < data.length := by simpa [mats, length_fs] using h₁
    simp only [mats, List.get_eq_getElem, List.getElem_map, List.getElem_range]
    rw [matAt_fs data n hn, List.getD_eq_getElem data none hn]

theorem collapse_id (l : List RElem) (h : ∀ x ∈ l, x ≠ some []) :
    l.map collapseEmpty = l := by
  rw [show l.map collapseEmpty = l.map id from
    List.map_congr_left (fun x hx => by simp [collapseEmpty, h x hx]), List.map_id]

theorem mats_fs_of_no_empty (data : List RElem) (h : ∀ x ∈ data, x ≠ some []) :
    mats (ragged_from_seq data) = data := by
  rw [mats_fs, collapse_id data h]

theorem mats_length (c : RaggedArray) : (mats c).length = c.length := by
  simp [mats]

/-! ### Invariant A for each construction path -/

theorem mem_buildOffsets_le (data : List RElem) (acc : Nat) :
    ∀ s ∈ buildOffsets data acc, s ≤ acc + sumLen data := by
  induction data generalizing acc with
  | nil => simp [buildOffsets]
  | cons d ds ih =>
    intro s hs
    simp only [buildOffsets, List.mem_cons] at hs
    rcases hs with rfl | hs
    · omega
    · have := ih (acc + elemLen d) s hs
      simp only [sumLen, List.map_cons, List.sum_cons] at this ⊢
      omega

theorem valid_fs (data : List RElem) : validRA (ragged_from_seq data) := by
  intro s hs
  simp only [ragged_from_seq, flat_length]
  have := mem_buildOffsets_le data 0 s (by simpa [ragged_from_seq] using hs)
  omega

theorem valid_raw (si : List Nat) (w : Nat) (fl : List Int) (r : RaggedArray)
    (h : ragged_from_raw si w fl = .ok r) : validRA r := by
  unfold ragged_from_raw validate at h
  by_cases hc : (si.map (fun s => decide (fl.length < s))).any id
  · simp [hc, Except.map] at h
  · rw [if_neg hc] at h
    simp only [Except.map, Except.ok.injEq] at h
    subst h
    intro s hs
    replace hs : s ∈ si := hs
    show s ≤ fl.length
    simp only [List.any_eq_true, not_exists, not_and] at hc
    have := hc (decide (fl.length < s)) (List.mem_map_of_mem _ hs)
    simp only [id] at this
    simp only [decide_eq_true_eq] at this
    omega

theorem valid_copy (c : RaggedArray) (h : validRA c) : validRA (copyRA c) := h

/-- Total flat length of a list of arrays. -/
def totalFlat (l : List RaggedArray) : Nat :=
  (l.map (fun ra => ra.flat_array.length)).sum

theorem mem_concatOffsets_le (l : List RaggedArray) (off : Nat)
    (hv : ∀ x ∈ l, validRA x) :
    ∀ s ∈ concatOffsets l off, s ≤ off + totalFlat l := by
  induction l generalizing off with
  | nil => simp [concatOffsets]
  | cons a rest ih =>
    intro s hs
    simp only [concatOffsets, List.mem_append, List.mem_map] at hs
    rcases hs with ⟨x, hx, rfl⟩ | hs
    · have hxv := hv a (by simp) x hx
      have hmod : (x + off) % 2 ^ shiftWidth a off ≤ x + off := Nat.mod_le _ _
      simp only [totalFlat, List.map_cons, List.sum_cons]
      omega
    · have := ih (off + a.flat_array.length)
        (fun x hx => hv x (List.mem_cons_of_mem _ hx)) s hs
      simp only [totalFlat, List.map_cons, List.sum_cons] at this ⊢
      omega

theorem concat_flat_length (l : List RaggedArray) :
    (concatRA l).flat_array.length = totalFlat l := by
  simp only [concatRA, totalFlat, List.length_flatten, List.map_map]
  rfl

theorem valid_concat (l : List RaggedArray) (hv : ∀ x ∈ l, validRA x) :
    validRA (concatRA l) := by
  intro s hs
  have := mem_concatOffsets_le l 0 hv s (by simpa [concatRA] using hs)
  rw [concat_flat_length]
  omega

/-! ### Concatenation as an operation on buffers -/

theorem map_add_add (l : List Nat) (m n : Nat) :
    (l.map (· + m)).map (· + n) = l.map (· + (m + n)) := by
  induction l with
  | nil => rfl
  | cons x xs ih =>
    simp only [List.map_cons, ih, List.cons.injEq, and_true]
    omega

theorem map_add_zero (l : List Nat) : l.map (· + 0) = l := by
  induction l with
  | nil => rfl
  | cons x xs ih => simp [ih]

theorem buildOffsets_shift (data : List RElem) (off acc : Nat) :
    buildOffsets data (off + acc) = (buildOffsets data acc).map (· + off) := by
  induction data generalizing acc with
  | nil => rfl
  | cons d ds ih =>
    simp only [buildOffsets, List.map_cons]
    congr 1
    · omega
    · rw [Nat.add_assoc, ih]

theorem buildOffsets_of_add (data : List RElem) (off : Nat) :
    buildOffsets data off = (buildOffsets data 0).map (· + off) := by
  have h := buildOffsets_shift data off 0
  simpa using h

theorem buildOffsets_append (A B : List RElem) (acc : Nat) :
    buildOffsets (A ++ B) acc =
      buildOffsets A acc ++ buildOffsets B (acc + sumLen A) := by
  induction A generalizing acc with
  | nil => simp [buildOffsets, sumLen]
  | cons d ds ih =>
    simp only [List.cons_append, buildOffsets, List.append_eq, ih,
      List.cons.injEq, true_and]
    have h : acc + elemLen d + sumLen ds = acc + sumLen (d :: ds) := by
      simp only [sumLen, List.map_cons, List.sum_cons]
      omega
    rw [h]

theorem concatOffsetsX_pair (x y : RaggedArray) :
    concatOffsetsX [x, y] 0 =
      x.start_indices ++ y.start_indices.map (· + x.flat_array.length) := by
  simp only [concatOffsetsX, map_add_zero, Nat.zero_add, List.append_nil]

theorem concatOffsetsX_triple (x y z : RaggedArray) :
    concatOffsetsX [x, y, z] 0 =
      x.start_indices ++ (y.start_indices.map (· + x.flat_array.length) ++
        z.start_indices.map
          (· + (x.flat_array.length + y.flat_array.length))) := by
  simp only [concatOffsetsX, map_add_zero, Nat.zero_add, List.append_nil]

theorem concatOffsets_eq_X (l : List RaggedArray) (off : Nat)
    (h : concatFits l off = true) :
    concatOffsets l off = concatOffsetsX l off := by
  induction l generalizing off with
  | nil => rfl
  | cons a rest ih =>
    simp only [concatFits, Bool.and_eq_true, List.all_eq_true,
      decide_eq_true_eq] at h
    simp only [concatOffsets, concatOffsetsX,
      ih (off + a.flat_array.length) h.2]
    congr 1
    apply List.map_congr_left
    intro s hs
    exact Nat.mod_eq_of_lt (h.1 s hs)

theorem matAt_congr (x y : RaggedArray)
    (hsi : x.start_indices = y.start_indices)
    (hfl : x.flat_array = y.flat_array) (j : Nat) : matAt x j = matAt y j := by
  cases x with
  | mk s w f =>
    cases y with
    | mk s2 w2 f2 =>
      obtain rfl : s = s2 := hsi
      obtain rfl : f = f2 := hfl
      rfl

theorem length_congr (x y : RaggedArray)
    (hsi : x.start_indices = y.start_indices) : x.length = y.length := by
  unfold RaggedArray.length
  rw [hsi]

theorem mats_congr (x y : RaggedArray)
    (hsi : x.start_indices = y.start_indices)
    (hfl : x.flat_array = y.flat_array) : mats x = mats y := by
  unfold mats
  rw [length_congr x y hsi]
  exact List.map_congr_left (fun j _ => matAt_congr x y hsi hfl j)

theorem fs_append_si (A B : List RElem) :
    concatOffsetsX [ragged_from_seq A, ragged_from_seq B] 0 =
      (ragged_from_seq (A ++ B)).start_indices := by
  rw [concatOffsetsX_pair]
  simp only [ragged_from_seq]
  rw [flat_length, buildOffsets_append A B 0, Nat.zero_add,
    buildOffsets_of_add B (sumLen A)]

theorem fs_append_fl (A B : List RElem) :
    ([ragged_from_seq A, ragged_from_seq B].map RaggedArray.flat_array).flatten
      = (ragged_from_seq (A ++ B)).flat_array := by
  simp [ragged_from_seq]

theorem fs_append_mats (A B : List RElem)
    (hfit : concatFits [ragged_from_seq A, ragged_from_seq B] 0 = true) :
    mats (concatRA [ragged_from_seq A, ragged_from_seq B]) =
      mats (ragged_from_seq (A ++ B)) := by
  apply mats_congr
  · show concatOffsets [ragged_from_seq A, ragged_from_seq B] 0 = _
    rw [concatOffsets_eq_X _ _ hfit, fs_append_si]
  · exact fs_append_fl A B

theorem getId_nonneg (c : RaggedArray) (i : Int) (h0 : 0 ≤ i)
    (h : i < (c.length : Int)) : getId c i = .ok (matAt c i.toNat) := by
  unfold getId
  rw [if_neg (by omega), if_neg (by omega)]

theorem getId_nat (c : RaggedArray) (i : Nat) (h : i < c.length) :
    getId c (Int.ofNat i) = .ok (matAt c i) := by
  rw [getId_nonneg c (Int.ofNat i) (by rw [Int.ofNat_eq_coe]; omega)
    (by rw [Int.ofNat_eq_coe]; omega)]
  rfl

theorem mapM_getId_ok (c : RaggedArray) (idx : List Nat)
    (h : ∀ i ∈ idx, i < c.length) :
    idx.mapM (fun i => getId c (Int.ofNat i)) = Except.ok (idx.map (matAt c)) := by
  induction idx with
  | nil => rfl
  | cons i is ih =>
    rw [List.mapM_cons, getId_nat c i (h i (by simp)),
      ih (fun j hj => h j (by simp [hj]))]
    rfl

theorem mapM_take_ok (c : RaggedArray) (idx : List Int) (fill : RElem)
    (h : ∀ i ∈ idx, -1 ≤ i ∧ i < (c.length : Int)) :
    idx.mapM (fun i => if 0 ≤ i then getId c i else pure fill) =
      Except.ok (idx.map (fun i => if 0 ≤ i then matAt c i.toNat else fill)) := by
  induction idx with
  | nil => rfl
  | cons i is ih =>
    rw [List.mapM_cons, ih (fun j hj => h j (by simp [hj])), List.map_cons]
    by_cases h0 : 0 ≤ i
    · rw [if_pos h0, if_pos h0, getId_nonneg c i h0 (h i (by simp)).2]
      rfl
    · rw [if_neg h0, if_neg h0]
      rfl

/-! ### Step-1 slices in element-position space -/

theorem sliceIdx_stop_neg (N : Nat) (p : Int) (hp : 0 < p) :
    sliceIdx N none (some (-p)) = (List.range N).take (N - p.natAbs) := by
  unfold sliceIdx pyNorm
  have he : (max 0 (min (N : Int) (if -p < 0 then -p + N else -p))).toNat =
      N - p.natAbs := by
    rw [if_pos (by omega)]
    omega
  simp only [he, List.drop_zero, Nat.sub_zero]

theorem sliceIdx_start_nat (N a : Nat) :
    sliceIdx N (some (a : Int)) none = (List.range N).drop (min N a) := by
  unfold sliceIdx pyNorm
  have hs : (max 0 (min (N : Int) (if (a : Int) < 0 then a + N else a))).toNat =
      min N a := by
    rw [if_neg (by omega)]
    omega
  simp only [hs]
  apply List.take_of_length_le
  simp [List.length_drop]

theorem getSlice_stop_neg (c : RaggedArray) (p : Int) (hp : 0 < p) :
    getSlice c none (some (-p)) =
      ragged_from_seq ((mats c).take (c.length - p.natAbs)) := by
  unfold getSlice
  rw [sliceIdx_stop_neg _ _ hp]
  congr 1
  rw [List.map_take]
  rfl

theorem getSlice_start_nat (c : RaggedArray) (a : Nat) :
    getSlice c (some (a : Int)) none =
      ragged_from_seq ((mats c).drop a) := by
  unfold getSlice
  rw [sliceIdx_start_nat]
  congr 1
  rw [List.map_drop]
  show (mats c).drop (min (c.length) a) = (mats c).drop a
  rcases le_or_lt a c.length with h | h
  · rw [min_eq_right h]
  · rw [List.drop_eq_nil_of_le (by simp [mats]; omega),
      List.drop_eq_nil_of_le (by simp [mats]; omega)]

/-! ### Shift as an operation on materialized elements -/

theorem shift_mats (c : RaggedArray) (p : Int) (fill : RElem)
    (hf : fill ≠ some []) (hc : ∀ x ∈ mats c, x ≠ some [])
    (hfits : shiftFits c p fill = true) :
    mats (shiftRA c p fill) =
      if c.length = 0 ∨ p = 0 then mats c
      else if 0 < p then
        List.replicate (min p.natAbs c.length) fill ++
          (mats c).take (c.length - p.natAbs)
      else
        (mats c).drop p.natAbs ++
          List.replicate (min p.natAbs c.length) fill := by
  unfold shiftRA copyRA
  unfold shiftFits at hfits
  by_cases h0 : c.length = 0 ∨ p = 0
  · rw [if_pos h0, if_pos h0]
  · rw [if_neg h0] at hfits
    rw [if_neg h0, if_neg h0]
    by_cases hp : 0 < p
    · rw [if_pos hp, getSlice_stop_neg c p hp] at hfits
      rw [if_pos hp, if_pos hp, getSlice_stop_neg c p hp,
        fs_append_mats _ _ hfits, mats_fs_of_no_empty]
      intro x hx
      rcases List.mem_append.mp hx with hx | hx
      · rw [List.eq_of_mem_replicate hx]; exact hf
      · exact hc x (List.mem_of_mem_take hx)
    · rw [if_neg hp, getSlice_start_nat c p.natAbs] at hfits
      rw [if_neg hp, if_neg hp, getSlice_start_nat c p.natAbs,
        fs_append_mats _ _ hfits, mats_fs_of_no_empty]
      intro x hx
      rcases List.mem_append.mp hx with hx | hx
      · exact hc x (List.mem_of_mem_drop hx)
      · rw [List.eq_of_mem_replicate hx]; exact hf

/-! ### First-occurrence deduplication -/

theorem pdUniqueAux_sublist (l : List RElem) :
    ∀ seen, (pdUniqueAux l seen).Sublist l := by
  induction l with
  | nil => intro seen; simp [pdUniqueAux]
  | cons x xs ih =>
    intro seen
    unfold pdUniqueAux
    by_cases hx : x ∈ seen
    · rw [if_pos hx]; exact (ih seen).cons x
    · rw [if_neg hx]; exact (ih (x :: seen)).cons₂ x

theorem mem_pdUniqueAux (l : List RElem) :
    ∀ (seen : List RElem) (x : RElem),
      x ∈ pdUniqueAux l seen ↔ x ∈ l ∧ x ∉ seen := by
  induction l with
  | nil => intro seen x; simp [pdUniqueAux]
  | cons a as ih =>
    intro seen x
    unfold pdUniqueAux
    by_cases ha : a ∈ seen
    · rw [if_pos ha, ih seen x]
      constructor
      · rintro ⟨hx, hs⟩
        exact ⟨List.mem_cons_of_mem _ hx, hs⟩
      · rintro ⟨hx, hs⟩
        rcases List.mem_cons.mp hx with rfl | hx
        · exact absurd ha hs
        · exact ⟨hx, hs⟩
    · rw [if_neg ha]
      simp only [List.mem_cons, ih (a :: seen) x]
      constructor
      · rintro (rfl | ⟨hx, hs⟩)
        · exact ⟨Or.inl rfl, ha⟩
        · exact ⟨Or.inr hx, fun hxs => hs (Or.inr hxs)⟩
      · rintro ⟨rfl | hx, hs⟩
        · exact Or.inl rfl
        · by_cases hxa : x = a
          · exact Or.inl hxa
          · refine Or.inr ⟨hx, fun hmem => ?_⟩
            rcases hmem with h | h
            exacts [hxa h, hs h]

theorem nodup_pdUniqueAux (l : List RElem) :
    ∀ seen, (pdUniqueAux l seen).Nodup := by
  induction l with
  | nil => intro seen; simp [pdUniqueAux]
  | cons a as ih =>
    intro seen
    unfold pdUniqueAux
    by_cases ha : a ∈ seen
    · rw [if_pos ha]; exact ih seen
    · rw [if_neg ha, List.nodup_cons]
      exact ⟨fun hmem =>
        ((mem_pdUniqueAux as (a :: seen) a).mp hmem).2 (List.mem_cons_self a seen),
        ih (a :: seen)⟩

theorem pdUnique_sublist (l : List RElem) : (pdUnique l).Sublist l :=
  pdUniqueAux_sublist l []

theorem mem_pdUnique (l : List RElem) (x : RElem) : x ∈ pdUnique l ↔ x ∈ l := by
  unfold pdUnique
  rw [mem_pdUniqueAux l [] x]
  simp

theorem nodup_pdUnique (l : List RElem) : (pdUnique l).Nodup :=
  nodup_pdUniqueAux l []

/-! ### Boolean-mask positions -/

theorem trueIdxs_lt (mask : List Bool) : ∀ i ∈ trueIdxs mask, i < mask.length := by
  intro i hi
  unfold trueIdxs at hi
  rw [List.mem_filterMap] at hi
  obtain ⟨⟨j, b⟩, hmem, heq⟩ := hi
  have hjb := List.of_mem_zip hmem
  by_cases hb : b = true
  · subst hb
    simp only [if_pos] at heq
    obtain rfl : j = i := by simpa using heq
    exact List.mem_range.mp hjb.1
  · simp [hb] at heq

/-! ### Python slicing of the flat buffer as an index range -/

theorem drop_take_eq_range_map (l : List Int) (s e : Nat) (he : e ≤ l.length) :
    (l.drop s).take (e - s) = (List.range' s (e - s)).map (fun k => l.getD k 0) := by
  apply List.ext_get
  · simp only [List.length_take, List.length_drop, List.length_map,
      List.length_range']
    omega
  · intro n h₁ h₂
    have hn : n < e - s := by
      simp only [List.length_take, List.length_drop] at h₁
      omega
    have hsn : s + n < l.length := by omega
    simp only [List.get_eq_getElem, List.getElem_take, List.getElem_drop,
      List.getElem_map, List.getElem_range']
    rw [show s + 1 * n = s + n from by omega, List.getD_eq_getElem l 0 hsn]

/-- C1 (counterexample): the round trip is not exact when a source item is a
zero-length array: encoding `[array([])]` and materializing position 0 yields
the missing sentinel, not the zero-length array. -/
theorem roundtrip_zero_length_cex :
    mats (ragged_from_seq [(some [] : RElem)]) = [none] ∧
    mats (ragged_from_seq [(some [] : RElem)]) ≠ [(some [] : RElem)] := by
  decide

/-- C1 (amended): for every source sequence of 1-D arrays and missing
sentinels in which no item is a zero-length array, building a RaggedArray and
materializing every position reproduces the source exactly, array-for-array
and missing-for-missing.  (A zero-length array item instead comes back as the
missing sentinel, see the counterexample.) -/
theorem roundtrip_no_empty_items (data : List RElem)
    (h : ∀ x ∈ data, x ≠ some []) :
    mats (ragged_from_seq data) = data :=
  mats_fs_of_no_empty data h

theorem roundtrip_no_empty_items_witness :
    mats (ragged_from_seq [some [1, 2], none, some [3]]) =
      [some [1, 2], none, some [3]] :=
  roundtrip_no_empty_items [some [1, 2], none, some [3]] (by decide)

/-- C2: positional access on a valid container: an index outside `[-N, N)`
fails with the bounds error; otherwise, with `j` the normalized non-negative
position, the result is the value slice `[offsets[j], stop_j)` of the flat
buffer (where `stop_j` is `offsets[j+1]` for non-last positions and
`len(flat_array)` for the last), except that when start equals stop the
missing sentinel is returned instead of an empty array. -/
theorem getitem_position_spec (c : RaggedArray) (i : Int) (hv : validRA c) :
    ((i < -(c.length : Int) ∨ (c.length : Int) ≤ i) →
      getId c i = .error (.indexError i)) ∧
    (-(c.length : Int) ≤ i → i < (c.length : Int) →
      ∃ j : Nat, (j : Int) = (if i < 0 then i + c.length else i) ∧
        getId c i = .ok (
          if c.start_indices.getD j 0 = stopAt c j then none
          else some ((List.range' (c.start_indices.getD j 0)
              (stopAt c j - c.start_indices.getD j 0)).map
            (fun k => c.flat_array.getD k 0)))) := by
  constructor
  · intro h
    unfold getId
    rw [if_pos h]
  · intro h1 h2
    refine ⟨(if i < 0 then i + c.length else i).toNat, ?_, ?_⟩
    · split <;> omega
    · have hjlt : (if i < 0 then i + c.length else i).toNat < c.length := by
        split <;> omega
      set j := (if i < 0 then i + c.length else i).toNat with hj
      have hjsi : j < c.start_indices.length := hjlt
      have hs_le : c.start_indices.getD j 0 ≤ c.flat_array.length := by
        rw [List.getD_eq_getElem c.start_indices 0 hjsi]
        exact hv _ (List.getElem_mem hjsi)
      have he_le : stopAt c j ≤ c.flat_array.length := by
        unfold stopAt
        split
        · next hcase =>
          have hj1 : j + 1 < c.start_indices.length := hcase
          rw [List.getD_eq_getElem c.start_indices 0 hj1]
          exact hv _ (List.getElem_mem hj1)
        · exact le_refl _
      unfold getId
      rw [if_neg (by omega)]
      rw [← hj]
      unfold matAt
      by_cases hse : c.start_indices.getD j 0 = stopAt c j
      · rw [if_pos hse, if_neg (show ¬(stopAt c j ≠ c.start_indices.getD j 0)
          from fun hne => hne hse.symm)]
      · rw [if_neg hse, if_pos (fun heq => hse heq.symm),
          drop_take_eq_range_map c.flat_array _ _ he_le]

theorem getitem_position_spec_witness :
    getId ⟨[0, 2], 8, [7, 8, 9]⟩ (-1) = .ok (some [9]) ∧
    getId ⟨[0, 2], 8, [7, 8, 9]⟩ 5 = .error (.indexError 5) := by
  constructor
  · obtain ⟨j, hj, hok⟩ :=
      (getitem_position_spec ⟨[0, 2], 8, [7, 8, 9]⟩ (-1) (by decide)).2
        (by decide) (by decide)
    have hj1 : j = 1 := by
      simp [RaggedArray.length] at hj
      omega
    subst hj1
    rw [hok]
    rfl
  · exact (getitem_position_spec ⟨[0, 2], 8, [7, 8, 9]⟩ 5 (by decide)).1
      (by decide)

/-- C4 (counterexample): concatenation is not associative once an offset
shift wraps its uint dtype.  With the sequence-built arrays
`a = [200 values]`, `b = [100 values]`, `c = [[50 values], [7]]` (all with
uint8 offsets), the inner `concat [b, c]` keeps uint8 offsets `[0, 100, 150]`
over a 352-value buffer is fine, but `concat [a, concat [b, c]]` shifts them
by 200 in uint8, wrapping `100 + 200` to `44` and `150 + 200` to `94`; the
flat `concat [a, b, c]` shifts `c` by 300, which promotes to uint16 and does
not wrap.  Position 1 then materializes as an empty array on the right-nested
grouping versus the 100-value element on the flat one. -/
theorem concat_assoc_wrap_cex :
    (concatRA [ragged_from_seq [some (List.replicate 200 1)],
      concatRA [ragged_from_seq [some (List.replicate 100 2)],
        ragged_from_seq [some (List.replicate 50 3), some [7]]]]).start_indices
      = [0, 200, 44, 94] ∧
    (concatRA [ragged_from_seq [some (List.replicate 200 1)],
      ragged_from_seq [some (List.replicate 100 2)],
      ragged_from_seq [some (List.replicate 50 3), some [7]]]).start_indices
      = [0, 200, 300, 350] ∧
    matAt (concatRA [ragged_from_seq [some (List.replicate 200 1)],
      concatRA [ragged_from_seq [some (List.replicate 100 2)],
        ragged_from_seq [some (List.replicate 50 3), some [7]]]]) 1
      = some [] ∧
    matAt (concatRA [ragged_from_seq [some (List.replicate 200 1)],
      ragged_from_seq [some (List.replicate 100 2)],
      ragged_from_seq [some (List.replicate 50 3), some [7]]]) 1
      = some (List.replicate 100 2) ∧
    mats (concatRA [ragged_from_seq [some (List.replicate 200 1)],
      concatRA [ragged_from_seq [some (List.replicate 100 2)],
        ragged_from_seq [some (List.replicate 50 3), some [7]]]]) ≠
      mats (concatRA [ragged_from_seq [some (List.replicate 200 1)],
        ragged_from_seq [some (List.replicate 100 2)],
        ragged_from_seq [some (List.replicate 50 3), some [7]]]) := by
  decide

/-- C4 (amended): concatenation is associative whenever none of the
offset-shift additions performed in any of the three groupings overflows the
uint dtype in which numpy computes it (`concatFits`): then
`concat [concat [a, b], c]`, `concat [a, concat [b, c]]` and
`concat [a, b, c]` have the same length and identical materialization at
every position.  (When a shift wraps — possible with narrow uint offsets, see
the counterexample — right-nesting can diverge.) -/
theorem concat_assoc_materialize (a b c : RaggedArray)
    (h1 : concatFits [a, b] 0 = true)
    (h2 : concatFits [b, c] 0 = true)
    (h3 : concatFits [a, b, c] 0 = true)
    (h4 : concatFits [concatRA [a, b], c] 0 = true)
    (h5 : concatFits [a, concatRA [b, c]] 0 = true) :
    (concatRA [concatRA [a, b], c]).length = (concatRA [a, b, c]).length ∧
    (concatRA [a, concatRA [b, c]]).length = (concatRA [a, b, c]).length ∧
    mats (concatRA [concatRA [a, b], c]) = mats (concatRA [a, b, c]) ∧
    mats (concatRA [a, concatRA [b, c]]) = mats (concatRA [a, b, c]) := by
  have hAB : (concatRA [a, b]).start_indices =
      a.start_indices ++ b.start_indices.map (· + a.flat_array.length) := by
    show concatOffsets [a, b] 0 = _
    rw [concatOffsets_eq_X _ _ h1, concatOffsetsX_pair]
  have hABfl : (concatRA [a, b]).flat_array = a.flat_array ++ b.flat_array := by
    show ([a, b].map RaggedArray.flat_array).flatten = _
    simp
  have hBC : (concatRA [b, c]).start_indices =
      b.start_indices ++ c.start_indices.map (· + b.flat_array.length) := by
    show concatOffsets [b, c] 0 = _
    rw [concatOffsets_eq_X _ _ h2, concatOffsetsX_pair]
  have hBCfl : (concatRA [b, c]).flat_array = b.flat_array ++ c.flat_array := by
    show ([b, c].map RaggedArray.flat_array).flatten = _
    simp
  have hsi3 : (concatRA [a, b, c]).start_indices = concatOffsetsX [a, b, c] 0 := by
    show concatOffsets [a, b, c] 0 = _
    exact concatOffsets_eq_X _ _ h3
  have hfl3 : (concatRA [a, b, c]).flat_array =
      a.flat_array ++ (b.flat_array ++ c.flat_array) := by
    show ([a, b, c].map RaggedArray.flat_array).flatten = _
    simp
  have hsiL : (concatRA [concatRA [a, b], c]).start_indices =
      concatOffsetsX [a, b, c] 0 := by
    show concatOffsets [concatRA [a, b], c] 0 = _
    rw [concatOffsets_eq_X _ _ h4, concatOffsetsX_pair, hAB, hABfl,
      concatOffsetsX_triple, List.length_append, List.append_assoc]
  have hflL : (concatRA [concatRA [a, b], c]).flat_array =
      a.flat_array ++ (b.flat_array ++ c.flat_array) := by
    show ([concatRA [a, b], c].map RaggedArray.flat_array).flatten = _
    simp only [List.map_cons, List.map_nil, List.flatten_cons,
      List.flatten_nil, List.append_nil, hABfl, List.append_assoc]
  have hsiR : (concatRA [a, concatRA [b, c]]).start_indices =
      concatOffsetsX [a, b, c] 0 := by
    show concatOffsets [a, concatRA [b, c]] 0 = _
    rw [concatOffsets_eq_X _ _ h5, concatOffsetsX_pair, hBC,
      List.map_append, map_add_add, concatOffsetsX_triple,
      Nat.add_comm b.flat_array.length a.flat_array.length]
  have hflR : (concatRA [a, concatRA [b, c]]).flat_array =
      a.flat_array ++ (b.flat_array ++ c.flat_array) := by
    show ([a, concatRA [b, c]].map RaggedArray.flat_array).flatten = _
    simp only [List.map_cons, List.map_nil, List.flatten_cons,
      List.flatten_nil, List.append_nil, hBCfl]
  refine ⟨?_, ?_, ?_, ?_⟩
  · exact length_congr _ _ (hsiL.trans hsi3.symm)
  · exact length_congr _ _ (hsiR.trans hsi3.symm)
  · exact mats_congr _ _ (hsiL.trans hsi3.symm) (hflL.trans hfl3.symm)
  · exact mats_congr _ _ (hsiR.trans hsi3.symm) (hflR.trans hfl3.symm)

theorem concat_assoc_materialize_witness :
    mats (concatRA [concatRA [ragged_from_seq [some [1]],
        ragged_from_seq [some [2]]], ragged_from_seq [some [3]]]) =
      mats (concatRA [ragged_from_seq [some [1]], ragged_from_seq [some [2]],
        ragged_from_seq [some [3]]]) :=
  (concat_assoc_materialize _ _ _ (by decide) (by decide) (by decide)
    (by decide) (by decide)).2.2.1


/-! ### Invariant A across the public operation set -/

theorem valid_of_map_fs (e : Except RErr (List RElem)) (r : RaggedArray)
    (h : e.map ragged_from_seq = .ok r) : validRA r := by
  cases e with
  | error err => simp [Except.map] at h
  | ok l =>
    simp only [Except.map, Except.ok.injEq] at h
    rw [← h]
    exact valid_fs l

theorem valid_getSlice (c : RaggedArray) (start stop : Option Int) :
    validRA (getSlice c start stop) := by
  unfold getSlice
  exact valid_fs _

/-- C3: every public operation preserves Invariant A (each offset bounded by
the flat-buffer length): construction from a sequence, construction from a
raw offsets/values pair, duplication, getitem by slice, getitem by boolean
mask, take, concat, fillna, shift and unique all produce valid containers
(from valid inputs where the operation reads the input buffers directly). -/
theorem bounds_invariant_all_ops :
    (∀ data : List RElem, validRA (ragged_from_seq data)) ∧
    (∀ (si : List Nat) (w : Nat) (fl : List Int) (r : RaggedArray),
      ragged_from_raw si w fl = .ok r → validRA r) ∧
    (∀ c : RaggedArray, validRA c → validRA (copyRA c)) ∧
    (∀ (x y : RaggedArray) (rest : List RaggedArray),
      (∀ z ∈ x :: y :: rest, validRA z) → validRA (concatRA (x :: y :: rest))) ∧
    (∀ (c : RaggedArray) (start stop : Option Int),
      validRA (getSlice c start stop)) ∧
    (∀ (c : RaggedArray) (mask : List Bool) (r : RaggedArray),
      getMask c mask = .ok r → validRA r) ∧
    (∀ (c : RaggedArray) (idx : List Int) (af : Bool) (fill : RElem)
      (r : RaggedArray), takeRA c idx af fill = .ok r → validRA r) ∧
    (∀ (c : RaggedArray) (v : RElem), validRA c → validRA (fillna_scalar c v)) ∧
    (∀ (c : RaggedArray) (p : Int) (fill : RElem),
      validRA c → validRA (shiftRA c p fill)) ∧
    (∀ c : RaggedArray, validRA (uniqueRA c)) := by
  refine ⟨valid_fs, valid_raw, valid_copy,
    fun x y rest h => valid_concat (x :: y :: rest) h, valid_getSlice,
    ?_, ?_, ?_, ?_, ?_⟩
  · intro c mask r h
    exact valid_of_map_fs _ _ h
  · intro c idx af fill r h
    unfold takeRA at h
    split at h
    · split at h
      · simp at h
      · exact valid_of_map_fs _ _ h
    · split at h
      · simp at h
      · exact valid_of_map_fs _ _ h
  · intro c v hv
    unfold fillna_scalar
    split
    · exact valid_fs _
    · exact valid_copy c hv
  · intro c p fill hv
    unfold shiftRA
    split
    · exact valid_copy c hv
    · split
      · apply valid_concat
        intro x hx
        rcases List.mem_cons.mp hx with rfl | hx
        · exact valid_fs _
        · rcases List.mem_cons.mp hx with rfl | hx
          · exact valid_getSlice _ _ _
          · simp at hx
      · apply valid_concat
        intro x hx
        rcases List.mem_cons.mp hx with rfl | hx
        · exact valid_getSlice _ _ _
        · rcases List.mem_cons.mp hx with rfl | hx
          · exact valid_fs _
          · simp at hx
  · intro c
    unfold uniqueRA
    exact valid_fs _

theorem bounds_invariant_all_ops_witness :
    validRA (ragged_from_seq [some [1, 2], none]) ∧
    validRA (copyRA ⟨[0, 2], 8, [5, 6, 7]⟩) ∧
    validRA (concatRA [⟨[0, 2], 8, [5, 6, 7]⟩, ⟨[1], 8, [4]⟩]) ∧
    validRA (shiftRA ⟨[0, 2], 8, [5, 6, 7]⟩ 1 none) :=
  ⟨bounds_invariant_all_ops.1 _,
   bounds_invariant_all_ops.2.2.1 _ (by decide),
   bounds_invariant_all_ops.2.2.2.1 _ _ [] (by decide),
   bounds_invariant_all_ops.2.2.2.2.2.2.2.2.1 _ _ _ (by decide)⟩

theorem sumLen_replicate_none (k : Nat) :
    sumLen (List.replicate k (none : RElem)) = 0 := by
  induction k with
  | zero => rfl
  | succ n ih =>
    simp only [List.replicate_succ, sumLen, List.map_cons, List.sum_cons,
      elemLen] at ih ⊢
    omega

theorem npUintWidth_bound (n m : Nat) (hm : m ≤ n) (hn : n < 2 ^ 64) :
    m < 2 ^ npUintWidth n := by
  have e8 : (2 : Nat) ^ 8 = 256 := by norm_num
  have e16 : (2 : Nat) ^ 16 = 65536 := by norm_num
  have e32 : (2 : Nat) ^ 32 = 4294967296 := by norm_num
  unfold npUintWidth
  split_ifs with h1 h2 h3
  · rw [e8]; omega
  · rw [e16]; omega
  · rw [e32]; omega
  · exact lt_of_le_of_lt hm hn

theorem fs_offsets_lt (data : List RElem) (h : sumLen data < 2 ^ 64) :
    ∀ s ∈ (ragged_from_seq data).start_indices,
      s < 2 ^ (ragged_from_seq data).width := by
  intro s hs
  have h1 : s ≤ sumLen data := by
    have h2 := mem_buildOffsets_le data 0 s (by simpa [ragged_from_seq] using hs)
    omega
  show s < 2 ^ npUintWidth (sumLen data)
  exact npUintWidth_bound (sumLen data) s h1 h

theorem sumLen_drop_le (data : List RElem) (i : Nat) :
    sumLen (data.drop i) ≤ sumLen data := by
  calc sumLen (data.drop i)
      ≤ sumLen (data.take i) + sumLen (data.drop i) := by omega
    _ = sumLen (data.take i ++ data.drop i) := by
        simp [sumLen, List.map_append, List.sum_append]
    _ = sumLen data := by rw [List.take_append_drop]

theorem fs_flat_len_replicate_none (k : Nat) :
    (ragged_from_seq (List.replicate k (none : RElem))).flat_array.length = 0 := by
  show (((List.replicate k (none : RElem)).map elemVals).flatten).length = 0
  rw [flat_length, sumLen_replicate_none]

theorem two_pow_le_of_le {a b : Nat} (h : a ≤ b) : (2 : Nat) ^ a ≤ 2 ^ b :=
  Nat.pow_le_pow_right (by norm_num) h

/-- The default missing fill never wraps: shifting with `fill_value` omitted
builds an all-missing block with an empty flat buffer, so the offset
rewrite adds zero on one side and the (representable) slice length on the
all-zero offsets of the missing block on the other. -/
theorem shiftFits_none (c : RaggedArray) (p : Int)
    (hsum : sumLen (mats c) < 2 ^ 64) : shiftFits c p none = true := by
  unfold shiftFits
  by_cases h0 : c.length = 0 ∨ p = 0
  · rw [if_pos h0]
  · rw [if_neg h0]
    by_cases hp : 0 < p
    · rw [if_pos hp, getSlice_stop_neg c p hp]
      simp only [concatFits, Bool.and_eq_true, List.all_eq_true,
        decide_eq_true_eq]
      refine ⟨?_, ?_, ?_⟩
      · intro s hs
        have hz := mem_buildOffsets_le
          (List.replicate (min p.natAbs c.length) none) 0 s
          (by simpa [ragged_from_seq] using hs)
        rw [sumLen_replicate_none] at hz
        have hpos : 0 < 2 ^ shiftWidth
            (ragged_from_seq (List.replicate (min p.natAbs c.length) none)) 0 :=
          Nat.pos_pow_of_pos _ (by norm_num)
        omega
      · intro s hs
        have hoff := fs_flat_len_replicate_none (min p.natAbs c.length)
        have hslt := fs_offsets_lt ((mats c).take (c.length - p.natAbs))
          (lt_of_le_of_lt (sumLen_take_le (mats c) _) hsum) s hs
        have hw : (2 : Nat) ^
              (ragged_from_seq ((mats c).take (c.length - p.natAbs))).width ≤
            2 ^ shiftWidth (ragged_from_seq ((mats c).take (c.length - p.natAbs)))
              (0 + (ragged_from_seq
                (List.replicate (min p.natAbs c.length) none)).flat_array.length) :=
          two_pow_le_of_le (le_max_left _ _)
        omega
      · trivial
    · rw [if_neg hp, getSlice_start_nat c p.natAbs]
      simp only [concatFits, Bool.and_eq_true, List.all_eq_true,
        decide_eq_true_eq]
      refine ⟨?_, ?_, ?_⟩
      · intro s hs
        have hslt := fs_offsets_lt ((mats c).drop p.natAbs)
          (lt_of_le_of_lt (sumLen_drop_le (mats c) _) hsum) s hs
        have hw : (2 : Nat) ^
              (ragged_from_seq ((mats c).drop p.natAbs)).width ≤
            2 ^ shiftWidth (ragged_from_seq ((mats c).drop p.natAbs)) 0 :=
          two_pow_le_of_le (le_max_left _ _)
        omega
      · intro s hs
        have hz := mem_buildOffsets_le
          (List.replicate (min p.natAbs c.length) none) 0 s
          (by simpa [ragged_from_seq] using hs)
        rw [sumLen_replicate_none] at hz
        have hflt : (ragged_from_seq ((mats c).drop p.natAbs)).flat_array.length =
            sumLen ((mats c).drop p.natAbs) := by
          show (((((mats c).drop p.natAbs)).map elemVals).flatten).length = _
          rw [flat_length]
        have hofflt : (ragged_from_seq ((mats c).drop p.natAbs)).flat_array.length
            < 2 ^ npUintWidth
              (0 + (ragged_from_seq ((mats c).drop p.natAbs)).flat_array.length) := by
          rw [Nat.zero_add]
          exact npUintWidth_bound _ _ (le_refl _)
            (by rw [hflt]; exact lt_of_le_of_lt (sumLen_drop_le (mats c) _) hsum)
        have hw : (2 : Nat) ^ npUintWidth
              (0 + (ragged_from_seq ((mats c).drop p.natAbs)).flat_array.length) ≤
            2 ^ shiftWidth
              (ragged_from_seq (List.replicate (min p.natAbs c.length) none))
              (0 + (ragged_from_seq ((mats c).drop p.natAbs)).flat_array.length) :=
          two_pow_le_of_le (le_max_right _ _)
        omega
      · trivial

/-- C5 (counterexample): shift routes through the wrapping concatenation, so
a shift with a long enough array fill value diverges from the claim: on
`c = [[199 values], [5], [6]]` with `periods = 1` and a 100-value fill array,
the sliced block `[[199 values], [5]]` has uint8 offsets `[0, 199]`, which are
shifted by the fill block length 100 in uint8, wrapping `199 + 100` to `43`;
position 1 of the result materializes as an empty array and position 2 as a
257-value slice, not the shifted elements. -/
theorem shift_wrap_cex :
    (shiftRA (ragged_from_seq
        [some (List.replicate 199 1), some [5], some [6]]) 1
      (some (List.replicate 100 9))).start_indices = [0, 100, 43] ∧
    matAt (shiftRA (ragged_from_seq
        [some (List.replicate 199 1), some [5], some [6]]) 1
      (some (List.replicate 100 9))) 1 = some [] ∧
    mats (shiftRA (ragged_from_seq
        [some (List.replicate 199 1), some [5], some [6]]) 1
      (some (List.replicate 100 9))) ≠
      [some (List.replicate 100 9), some (List.replicate 199 1), some [5]] := by
  decide

/-- C5 (amended): shift on a container with no zero-length-array positions
and a fill value that is not a zero-length array, provided the offset
rewrite of the underlying concatenation does not wrap (`shiftFits`; the
counterexample shows a wide array fill can wrap narrow uint offsets):
`periods = 0` or an empty container returns the container unchanged; the
length is always preserved; a positive shift materializes as `min(|p|, N)`
fill elements followed by the first `N - |p|` original elements; a negative
shift as the last `N - |p|` original elements followed by the fill block;
`|p| ≥ N` gives all-fill elements.  The last conjunct shows the no-wrap
condition always holds for the default missing fill value (on any container
whose materialized lengths fit uint64). -/
theorem shift_spec (c : RaggedArray) (p : Int) (fill : RElem)
    (hf : fill ≠ some []) (hc : ∀ x ∈ mats c, x ≠ some [])
    (hfits : shiftFits c p fill = true) :
    shiftRA c 0 fill = c ∧
    (c.length = 0 → shiftRA c p fill = c) ∧
    (shiftRA c p fill).length = c.length ∧
    (0 < p → mats (shiftRA c p fill) =
      List.replicate (min p.natAbs c.length) fill ++
        (mats c).take (c.length - p.natAbs)) ∧
    (p < 0 → mats (shiftRA c p fill) =
      (mats c).drop p.natAbs ++ List.replicate (min p.natAbs c.length) fill) ∧
    (c.length ≤ p.natAbs → mats (shiftRA c p fill) =
      List.replicate c.length fill) ∧
    (∀ q : Int, sumLen (mats c) < 2 ^ 64 → shiftFits c q none = true) := by
  have hm := shift_mats c p fill hf hc hfits
  have hnil : c.length = 0 → mats c = [] := fun h0 =>
    List.eq_nil_of_length_eq_zero (by rw [mats_length]; exact h0)
  refine ⟨?_, ?_, ?_, ?_, ?_, ?_, fun q hq => shiftFits_none c q hq⟩
  · unfold shiftRA copyRA
    rw [if_pos (Or.inr rfl)]
  · intro h0
    unfold shiftRA copyRA
    rw [if_pos (Or.inl h0)]
  · rw [← mats_length (shiftRA c p fill), hm]
    by_cases h0 : c.length = 0 ∨ p = 0
    · rw [if_pos h0, mats_length]
    · rw [if_neg h0]
      by_cases hp : 0 < p
      · rw [if_pos hp]
        simp only [List.length_append, List.length_replicate, List.length_take,
          mats_length]
        omega
      · rw [if_neg hp]
        simp only [List.length_append, List.length_replicate, List.length_drop,
          mats_length]
        omega
  · intro hp
    by_cases h0 : c.length = 0 ∨ p = 0
    · have h0l : c.length = 0 := by
        rcases h0 with h0 | h0
        · exact h0
        · omega
      rw [hm, if_pos h0, hnil h0l, h0l]
      simp
    · rw [hm, if_neg h0, if_pos hp]
  · intro hp
    by_cases h0 : c.length = 0 ∨ p = 0
    · have h0l : c.length = 0 := by
        rcases h0 with h0 | h0
        · exact h0
        · omega
      rw [hm, if_pos h0, hnil h0l, h0l]
      simp
    · rw [hm, if_neg h0, if_neg (by omega : ¬ (0 < p))]
  · intro hge
    by_cases h0 : c.length = 0 ∨ p = 0
    · have h0l : c.length = 0 := by
        rcases h0 with h0 | h0
        · exact h0
        · omega
      rw [hm, if_pos h0, hnil h0l, h0l]
      simp
    · rw [hm, if_neg h0]
      by_cases hp : 0 < p
      · rw [if_pos hp, min_eq_right hge, Nat.sub_eq_zero_of_le hge]
        simp
      · rw [if_neg hp,
          List.drop_eq_nil_of_le (by rw [mats_length]; exact hge),
          min_eq_right hge]
        simp

theorem shift_spec_witness :
    mats (shiftRA (ragged_from_seq [some [1], some [2, 3], none]) 2 none) =
      [none, none, some [1]] := by
  have h := (shift_spec (ragged_from_seq [some [1], some [2, 3], none]) 2 none
    (by decide) (by decide) (by decide)).2.2.2.1 (by decide)
  rw [h]
  decide

/-- C7: take with `allow_fill=True`: any index below `-1` makes take fail
with the value error reporting the offending indices capped at the first
nine; when every index is in `[-1, N)`, index `-1` yields the fill value and
non-negative indices are positional lookups; in particular `take(c, [-1])`
yields a single-element container whose sole element materializes to the
fill value (the missing sentinel when the fill value is missing). -/
theorem take_allow_fill_spec (c : RaggedArray) (indices : List Int)
    (fill : RElem) (hf : fill ≠ some []) :
    ((∃ i ∈ indices, i < -1) →
      takeRA c indices true fill =
        .error (.valueError ((indices.filter (fun i => i < -1)).take 9))) ∧
    ((∀ i ∈ indices, -1 ≤ i ∧ i < (c.length : Int)) →
      takeRA c indices true fill =
        .ok (ragged_from_seq (indices.map
          (fun i => if 0 ≤ i then matAt c i.toNat else fill))) ∧
      ((∀ i ∈ indices, 0 ≤ i → matAt c i.toNat ≠ some []) →
        ∀ r, takeRA c indices true fill = .ok r →
          mats r = indices.map
            (fun i => if 0 ≤ i then matAt c i.toNat else fill))) ∧
    (takeRA c [-1] true fill = .ok (ragged_from_seq [fill]) ∧
      ∀ r, takeRA c [-1] true fill = .ok r → mats r = [fill]) := by
  refine ⟨?_, ?_, ?_⟩
  · rintro ⟨i, hi, hlt⟩
    have hmem : i ∈ indices.filter (fun i => decide (i < -1)) :=
      List.mem_filter.mpr ⟨hi, by simpa using hlt⟩
    unfold takeRA
    rw [if_pos rfl, if_pos (List.ne_nil_of_mem hmem)]
  · intro hin
    have hemp : indices.filter (fun i => decide (i < -1)) = [] := by
      rw [List.filter_eq_nil_iff]
      intro a ha
      have := hin a ha
      simp only [decide_eq_true_eq]
      omega
    have hok : takeRA c indices true fill =
        .ok (ragged_from_seq (indices.map
          (fun i => if 0 ≤ i then matAt c i.toNat else fill))) := by
      unfold takeRA
      rw [if_pos rfl, if_neg (by rw [hemp]; simp),
        mapM_take_ok c indices fill hin]
      rfl
    refine ⟨hok, fun hne r hr => ?_⟩
    rw [hok] at hr
    rw [← Except.ok.inj hr, mats_fs_of_no_empty]
    intro x hx
    rw [List.mem_map] at hx
    obtain ⟨i, hi, rfl⟩ := hx
    by_cases h0 : 0 ≤ i
    · rw [if_pos h0]
      exact hne i hi h0
    · rw [if_neg h0]
      exact hf
  · have hok : takeRA c [-1] true fill = .ok (ragged_from_seq [fill]) := by
      unfold takeRA
      rw [if_pos rfl, if_neg (by decide)]
      rfl
    refine ⟨hok, fun r hr => ?_⟩
    rw [hok] at hr
    rw [← Except.ok.inj hr, mats_fs_of_no_empty]
    intro x hx
    rw [List.mem_singleton.mp hx]
    exact hf

theorem take_allow_fill_spec_witness :
    takeRA (ragged_from_seq [some [5]]) [-2, 0, -3] true none =
      .error (.valueError [-2, -3]) ∧
    takeRA (ragged_from_seq [some [5]]) [-1] true (some [7]) =
      .ok (ragged_from_seq [some [7]]) ∧
    mats (ragged_from_seq [some [7]]) = [some [7]] := by
  refine ⟨?_, ?_, ?_⟩
  · have h := (take_allow_fill_spec (ragged_from_seq [some [5]]) [-2, 0, -3]
      none (by decide)).1 ⟨-2, by decide, by decide⟩
    rw [h]
    rfl
  · exact (take_allow_fill_spec (ragged_from_seq [some [5]]) [-1] (some [7])
      (by decide)).2.2.1
  · exact (take_allow_fill_spec (ragged_from_seq [some [5]]) [-1] (some [7])
      (by decide)).2.2.2 (ragged_from_seq [some [7]])
      (take_allow_fill_spec (ragged_from_seq [some [5]]) [-1] (some [7])
        (by decide)).2.2.1

/-- C10 (implicit): boolean-mask getitem performs no length check: for any
mask no longer than the container, access succeeds and returns the container
re-encoded from the elements at the True positions of the mask, in order (a
short mask selects only from the prefix of the container). -/
theorem getitem_mask_spec (c : RaggedArray) (mask : List Bool)
    (h : mask.length ≤ c.length) :
    getMask c mask = .ok (ragged_from_seq ((trueIdxs mask).map (matAt c))) ∧
    ((∀ x ∈ mats c, x ≠ some []) →
      ∀ r, getMask c mask = .ok r →
        mats r = (trueIdxs mask).map (matAt c)) := by
  have hlt : ∀ i ∈ trueIdxs mask, i < c.length := fun i hi =>
    lt_of_lt_of_le (trueIdxs_lt mask i hi) h
  have hok : getMask c mask =
      .ok (ragged_from_seq ((trueIdxs mask).map (matAt c))) := by
    unfold getMask
    rw [mapM_getId_ok c (trueIdxs mask) hlt]
    rfl
  refine ⟨hok, fun hc r hr => ?_⟩
  rw [hok] at hr
  rw [← Except.ok.inj hr, mats_fs_of_no_empty]
  intro x hx
  rw [List.mem_map] at hx
  obtain ⟨i, hi, rfl⟩ := hx
  apply hc
  unfold mats
  exact List.mem_map.mpr ⟨i, List.mem_range.mpr (hlt i hi), rfl⟩

theorem getitem_mask_spec_witness :
    getMask (ragged_from_seq [some [1], some [2], some [3]]) [false, true] =
      .ok (ragged_from_seq [some [2]]) := by
  have h := (getitem_mask_spec (ragged_from_seq [some [1], some [2], some [3]])
    [false, true] (by decide)).1
  rw [h]
  rfl

theorem count_eq_one_of_nodup_mem {l : List RElem} {x : RElem}
    (hn : l.Nodup) (hm : x ∈ l) : l.count x = 1 := by
  induction l with
  | nil => simp at hm
  | cons a as ih =>
    rw [List.nodup_cons] at hn
    rcases List.mem_cons.mp hm with rfl | hm2
    · rw [List.count_cons_self]
      have h0 : as.count x = 0 := List.count_eq_zero.mpr hn.1
      omega
    · have hxa : x ≠ a := fun hxa => hn.1 (hxa ▸ hm2)
      rw [List.count_cons_of_ne hxa, ih hn.2 hm2]

/-- C9 (counterexample): on the valid container with buffers
`start_indices = [1, 0, 1]`, `flat_array = [5]` (decreasing offsets pass
validation, which only checks the bound), position 0 materializes as the
zero-length array `flat[1:0]`, a distinct non-missing element under the
Element Identity contract.  `unique` keeps it as a survivor, but re-encoding
turns it into a missing entry: the output materializes `[missing, [5],
missing]`, so the missing sentinel appears twice in the output and the
zero-length array appears zero times, refuting the claim. -/
theorem unique_empty_element_cex :
    validate [1, 0, 1] [5] = .ok () ∧
    mats ⟨[1, 0, 1], 8, [5]⟩ = [some [], some [5], none] ∧
    mats (uniqueRA ⟨[1, 0, 1], 8, [5]⟩) = [none, some [5], none] ∧
    (mats (uniqueRA ⟨[1, 0, 1], 8, [5]⟩)).count none = 2 ∧
    some [] ∈ mats ⟨[1, 0, 1], 8, [5]⟩ ∧
    (mats (uniqueRA ⟨[1, 0, 1], 8, [5]⟩)).count (some []) = 0 := by
  exact ⟨rfl, by decide, by decide, by decide, by decide, by decide⟩

/-- C9 (amended): for every container none of whose positions materializes
as a zero-length array (in particular every container built by the sequence
constructor, whose offsets are non-decreasing), `unique` materializes as the
first-occurrence deduplication of the element sequence: its output has no
duplicates (so each distinct non-missing element appears exactly once and
all repeated missing entries collapse to one missing entry), keeps only
elements of the input, keeps every element of the input, and lists survivors
in first-occurrence order (it is an order-preserving sublist). -/
theorem unique_spec (c : RaggedArray) (hc : ∀ x ∈ mats c, x ≠ some []) :
    mats (uniqueRA c) = pdUnique (mats c) ∧
    (mats (uniqueRA c)).Nodup ∧
    (mats (uniqueRA c)).Sublist (mats c) ∧
    (∀ x ∈ mats c, x ∈ mats (uniqueRA c)) ∧
    (∀ x ∈ mats c, (mats (uniqueRA c)).count x = 1) := by
  have h1 : mats (uniqueRA c) = pdUnique (mats c) := by
    unfold uniqueRA
    rw [mats_fs_of_no_empty]
    intro x hx
    exact hc x ((mem_pdUnique (mats c) x).mp hx)
  refine ⟨h1, ?_, ?_, ?_, ?_⟩
  · rw [h1]
    exact nodup_pdUnique _
  · rw [h1]
    exact pdUnique_sublist _
  · intro x hx
    rw [h1]
    exact (mem_pdUnique _ x).mpr hx
  · intro x hx
    rw [h1]
    exact count_eq_one_of_nodup_mem (nodup_pdUnique _) ((mem_pdUnique _ x).mpr hx)

theorem unique_spec_witness :
    mats (uniqueRA (ragged_from_seq [some [1], none, some [1], none])) =
      pdUnique (mats (ragged_from_seq [some [1], none, some [1], none])) ∧
    (mats (uniqueRA (ragged_from_seq [some [1], none, some [1], none]))).Nodup :=
  ⟨(unique_spec (ragged_from_seq [some [1], none, some [1], none])
      (by decide)).1,
   (unique_spec (ragged_from_seq [some [1], none, some [1], none])
      (by decide)).2.1⟩

/-- C6 (code bug): `fillna` with a RaggedArray `value` masks the value
(`value = value[mask]`) and then assigns that whole masked sub-container
object to every missing slot (`new_values[ind] = value`), instead of
distributing its elements per position: on `c = [[1,2], missing, missing]`
and `value = [[7],[8],[9]]`, slots 1 and 2 of the assembled `new_values`
both hold the two-element container `{[0,1], [8,9]}`, not the per-position
elements `[8]` and `[9]` the claim requires. -/
theorem fillna_ragged_value_bug :
    fillna_ra (ragged_from_seq [some [1, 2], none, none])
        (ragged_from_seq [some [7], some [8], some [9]]) =
      .ok [.el (some [1, 2]), .ra ⟨[0, 1], 8, [8, 9]⟩,
        .ra ⟨[0, 1], 8, [8, 9]⟩] ∧
    ([FillDatum.el (some [1, 2]), .ra ⟨[0, 1], 8, [8, 9]⟩,
        .ra ⟨[0, 1], 8, [8, 9]⟩].getD 1 (.el none) ≠ .el (some [8])) ∧
    ([FillDatum.el (some [1, 2]), .ra ⟨[0, 1], 8, [8, 9]⟩,
        .ra ⟨[0, 1], 8, [8, 9]⟩].getD 2 (.el none) ≠ .el (some [9])) := by
  exact ⟨rfl, by decide, by decide⟩

/-- C8 (code bug): the raw-pair validation reports
`start_indices[invalid_inds[:10]]`: the boolean mask is truncated to its
first ten entries before selecting, so an offending offset at a position
past the tenth is never reported: with eleven offsets `[0,…,0,5]` over an
empty values buffer, validation fails (offset `5 > 0`) but the reported
offending-offset list is empty, although the offending offsets are `[5]`. -/
theorem validate_report_bug :
    validate (List.replicate 10 0 ++ [5]) [] = .error [] ∧
    (List.replicate 10 0 ++ [5]).filter
      (fun s => ([] : List Int).length < s) = [5] := by
  exact ⟨rfl, by decide⟩

end DS
